import Mathlib

/-!
Verification development for a binary-search-tree map
(`BinarySearchTreeMap<K,V>` from `BinaryTree.cpp`).

The C++ class stores a `size_` counter and a `root` owning pointer to a
`Node` (key, value, left, right).  We embed the tree of nodes as an
inductive type, the map as a structure, and each method as a pure
function.  The C++ methods walk the tree iteratively with a
pointer-to-pointer; here the same walk is the structural recursion over
the tree, taking the identical branch at every node: first the equality
test `current == key`, then `key > current` goes right, otherwise left.
`remove` can throw `std::invalid_argument`; it is embedded as `Except`
carrying the exception message.
-/

/-- A subtree of nodes: either an empty `unique_ptr` or a node with
key, value and two owned children. -/
inductive Node (K V : Type) where
  | nil : Node K V
  | node (key : K) (value : V) (left : Node K V) (right : Node K V) : Node K V
deriving DecidableEq, Repr

variable {K V : Type}

/-- Number of nodes reachable from this subtree. -/
def Node.size : Node K V → Nat
  | .nil => 0
  | .node _ _ l r => l.size + r.size + 1

/-- The in-order list of (key, value) pairs of the subtree. -/
def Node.inorder : Node K V → List (K × V)
  | .nil => []
  | .node k v l r => l.inorder ++ (k, v) :: r.inorder

/-- The in-order list of keys of the subtree. -/
def Node.keys (t : Node K V) : List K :=
  t.inorder.map Prod.fst

section Ops

variable [LinearOrder K]

/-- The loop of `BinarySearchTreeMap::put` (lines 58-79): walk from the
given subtree; on an equal key overwrite the value via `setValue` and
return the previous value; on `key > current` descend right, else left;
reaching an empty slot, place a fresh leaf node there and return empty.
The returned pair is (tree after the call, returned `optional`). -/
def Node.put : Node K V → K → V → Node K V × Option V
  | .nil, k, v => (.node k v .nil .nil, none)
  | .node cur val l r, k, v =>
    if cur = k then
      (.node cur v l r, some val)
    else if k > cur then
      let p := r.put k v
      (.node cur val l p.1, p.2)
    else
      let p := l.put k v
      (.node cur val p.1 r, p.2)

/-- The loop of `BinarySearchTreeMap::get` (lines 101-112): same walk as
`put`; return the value on a key match, empty on an empty slot. -/
def Node.get : Node K V → K → Option V
  | .nil, _ => none
  | .node cur val l r, k =>
    if cur = k then some val
    else if k > cur then r.get k
    else l.get k

/-- The exception message thrown by `remove` for a non-leaf node. -/
def removeErrorMsg : String := "ERROR: Only leaf nodes can be removed."

/-- The loop of `BinarySearchTreeMap::remove` (lines 81-99): same walk;
on a key match, throw if either child is non-empty, otherwise clear the
slot and return the removed value; reaching an empty slot, return empty.
`Except.error` is the thrown `std::invalid_argument` message. -/
def Node.remove : Node K V → K → Except String (Node K V × Option V)
  | .nil, _ => .ok (.nil, none)
  | .node cur val l r, k =>
    if cur = k then
      match l, r with
      | .nil, .nil => .ok (.nil, some val)
      | _, _ => .error removeErrorMsg
    else if k > cur then
      match r.remove k with
      | .error e => .error e
      | .ok (r2, res) => .ok (.node cur val l r2, res)
    else
      match l.remove k with
      | .error e => .error e
      | .ok (l2, res) => .ok (.node cur val l2 r, res)

/-- The search walk of `get`/`remove`, returning the subtree rooted at
the node whose key matches (used to state which node an operation hits). -/
def Node.findNode : Node K V → K → Option (Node K V)
  | .nil, _ => none
  | .node cur val l r, k =>
    if cur = k then some (.node cur val l r)
    else if k > cur then r.findNode k
    else l.findNode k

end Ops

/-- The `BinarySearchTreeMap` object: a `size_` counter and the owned
`root`. -/
structure BSTMap (K V : Type) where
  size_ : Nat
  root : Node K V
deriving DecidableEq, Repr

/-- The default constructor: `size_(0), root(nullptr)`. -/
def BSTMap.empty (K V : Type) : BSTMap K V := ⟨0, .nil⟩

/-- `size()`: returns `size_`. -/
def BSTMap.size (m : BSTMap K V) : Nat := m.size_

/-- `isEmpty()`: returns `size_ == 0`. -/
def BSTMap.isEmpty (m : BSTMap K V) : Bool := m.size_ == 0

section MapOps

variable [LinearOrder K]

/-- `BinarySearchTreeMap::put`: run the tree walk from `root`; when it
returns early with a previous value, `size_` is untouched; when it
inserts (empty root or empty slot), `++size_` runs. -/
def BSTMap.put (m : BSTMap K V) (k : K) (v : V) : BSTMap K V × Option V :=
  let p := m.root.put k v
  match p.2 with
  | some old => (⟨m.size_, p.1⟩, some old)
  | none => (⟨m.size_ + 1, p.1⟩, none)

/-- `BinarySearchTreeMap::remove`: run the tree walk from `root`;
`--size_` runs exactly on the successful (leaf) removal path; a thrown
exception propagates with the map untouched. -/
def BSTMap.remove (m : BSTMap K V) (k : K) :
    Except String (BSTMap K V × Option V) :=
  match m.root.remove k with
  | .error e => .error e
  | .ok (t, some v) => .ok (⟨m.size_ - 1, t⟩, some v)
  | .ok (t, none) => .ok (⟨m.size_, t⟩, none)

/-- `BinarySearchTreeMap::get` from `root`; it writes nothing. -/
def BSTMap.get (m : BSTMap K V) (k : K) : Option V := m.root.get k

end MapOps

/-- One call of the mutating/observing API, for describing reachable
states: `put`, `remove` (a thrown exception leaves the map as it was),
and `get` (reads only, never writes). -/
inductive Op (K V : Type) where
  | put (k : K) (v : V) : Op K V
  | rem (k : K) : Op K V
  | get (k : K) : Op K V
deriving DecidableEq, Repr

section Runs

variable [LinearOrder K]

/-- Apply one API call to a map state.  `remove` throwing or returning
empty leaves the state unchanged (the C++ method mutates nothing on
those paths); `get` reads only. -/
def BSTMap.applyOp (m : BSTMap K V) : Op K V → BSTMap K V
  | .put k v => (m.put k v).1
  | .rem k =>
    match m.remove k with
    | .ok (m2, _) => m2
    | .error _ => m
  | .get _ => m

/-- The map state after a sequence of API calls starting from the
freshly constructed map. -/
def BSTMap.run (ops : List (Op K V)) : BSTMap K V :=
  ops.foldl BSTMap.applyOp (BSTMap.empty K V)

end Runs

/-- All keys in the subtree satisfy `p`. -/
def Node.ForallKeys (p : K → Prop) : Node K V → Prop
  | .nil => True
  | .node k _ l r => p k ∧ l.ForallKeys p ∧ r.ForallKeys p

/-- The BST ordering invariant: at every node, all keys of the left
subtree are strictly below the node's key and all keys of the right
subtree strictly above. -/
def Node.BST [LinearOrder K] : Node K V → Prop
  | .nil => True
  | .node k _ l r =>
    l.ForallKeys (· < k) ∧ r.ForallKeys (k < ·) ∧ l.BST ∧ r.BST

/-- The representation invariant of the map object: the tree is a BST
and `size_` counts its nodes. -/
def BSTMap.Inv [LinearOrder K] (m : BSTMap K V) : Prop :=
  m.root.BST ∧ m.size_ = m.root.size

/-- The insertion sequence of the demonstration driver `main` (lines
142-149). -/
def scenarioPuts : List (Op Int String) :=
  [.put 4 "four", .put 5 "five", .put 3 "three", .put 1 "one",
   .put 6 "six", .put 0 "zero", .put 7 "seven", .put 2 "two"]

/-- Size of the right child (weight of a stack entry in the traversal
termination measure). -/
def Node.rightSize : Node K V → Nat
  | .nil => 0
  | .node _ _ _ r => r.size

/-- The text `toString` emits for one node: `"(" << key << ", " <<
value << ") "`. -/
def pairStr [ToString K] [ToString V] (k : K) (v : V) : String :=
  "(" ++ toString k ++ ", " ++ toString v ++ ") "

/-- The explicit-stack in-order loop of `BinarySearchTreeMap::toString`
(lines 114-134): while the stack is non-empty or the current node is
non-null, either push the node and go left, or pop, emit the popped
node's pair, and go to its right child.  `acc` is the stream contents so
far. -/
def Node.inOrderLoop [ToString K] [ToString V] :
    Node K V → List (Node K V) → String → String
  | .node k v l r, stack, acc => inOrderLoop l (.node k v l r :: stack) acc
  | .nil, [], acc => acc
  | .nil, .node k v _ r :: stack, acc => inOrderLoop r stack (acc ++ pairStr k v)
  | .nil, .nil :: stack, acc => inOrderLoop .nil stack acc
termination_by t stack _ => 2 * t.size + (stack.map fun s => 1 + 2 * s.rightSize).sum
decreasing_by
  all_goals simp [Node.size, Node.rightSize]
  all_goals omega

/-- `BinarySearchTreeMap::toString`: stream `"[ "`, run the loop, then
stream `"]"`. -/
def BSTMap.toString [ToString K] [ToString V] (m : BSTMap K V) : String :=
  Node.inOrderLoop m.root [] "[ " ++ "]"

/-- The text an in-order traversal of a subtree contributes to the
output. -/
def Node.inorderStr [ToString K] [ToString V] : Node K V → String
  | .nil => ""
  | .node k v l r => l.inorderStr ++ pairStr k v ++ r.inorderStr

/-- Render a list of pairs the way `toString` renders them. -/
def renderPairs [ToString K] [ToString V] : List (K × V) → String
  | [] => ""
  | p :: ps => pairStr p.1 p.2 ++ renderPairs ps

/-- The text still owed by the traversal stack: each entry contributes
its own pair followed by its right subtree. -/
def emitStack [ToString K] [ToString V] : List (Node K V) → String
  | [] => ""
  | .nil :: rest => emitStack rest
  | .node k v _ r :: rest => pairStr k v ++ r.inorderStr ++ emitStack rest

section PutGetLemmas

variable [LinearOrder K]

/-- The `optional` returned by the `put` walk is exactly what `get`
would have returned beforehand. -/
theorem Node.put_snd (t : Node K V) (k : K) (v : V) :
    (t.put k v).2 = t.get k := by
  induction t with
  | nil => rfl
  | node cur val l r ihl ihr =>
    by_cases h1 : cur = k
    · simp [Node.put, Node.get, h1]
    · by_cases h2 : k > cur <;> simp [Node.put, Node.get, h1, h2, ihl, ihr]

/-- After `put k v`, looking up `k` finds `v`. -/
theorem Node.get_put_self (t : Node K V) (k : K) (v : V) :
    (t.put k v).1.get k = some v := by
  induction t with
  | nil => simp [Node.put, Node.get]
  | node cur val l r ihl ihr =>
    by_cases h1 : cur = k
    · simp [Node.put, Node.get, h1]
    · by_cases h2 : k > cur <;> simp [Node.put, Node.get, h1, h2, ihl, ihr]

/-- `put k v` does not affect the lookup of any other key. -/
theorem Node.get_put_frame (t : Node K V) (k k2 : K) (v : V) (h : k2 ≠ k) :
    (t.put k v).1.get k2 = t.get k2 := by
  induction t with
  | nil => simp [Node.put, Node.get, Ne.symm h]
  | node cur val l r ihl ihr =>
    by_cases h1 : cur = k
    · subst h1
      simp [Node.put, Node.get, Ne.symm h]
    · by_cases h3 : cur = k2
      · subst h3
        by_cases h2 : k > cur <;>
          simp [Node.put, Node.get, h1, h2, h, ihl, ihr]
      · by_cases h2 : k > cur <;>
          simp [Node.put, Node.get, h1, h2, h3, ihl, ihr]

/-- A `put` that hits an empty slot grows the node count by one. -/
theorem Node.size_put_of_get_none (t : Node K V) (k : K) (v : V)
    (h : t.get k = none) : (t.put k v).1.size = t.size + 1 := by
  induction t with
  | nil => simp [Node.put, Node.size]
  | node cur val l r ihl ihr =>
    by_cases h1 : cur = k
    · simp [Node.get, h1] at h
    · by_cases h2 : k > cur
      · simp [Node.get, h1, h2] at h
        simp [Node.put, Node.size, h1, h2, ihr h]
        omega
      · simp [Node.get, h1, h2] at h
        simp [Node.put, Node.size, h1, h2, ihl h]
        omega

/-- A `put` that overwrites an existing key leaves the node count
unchanged. -/
theorem Node.size_put_of_get_some (t : Node K V) (k : K) (v o : V)
    (h : t.get k = some o) : (t.put k v).1.size = t.size := by
  induction t with
  | nil => simp [Node.get] at h
  | node cur val l r ihl ihr =>
    by_cases h1 : cur = k
    · simp [Node.put, Node.size, h1]
    · by_cases h2 : k > cur
      · simp [Node.get, h1, h2] at h
        simp [Node.put, Node.size, h1, h2, ihr h]
      · simp [Node.get, h1, h2] at h
        simp [Node.put, Node.size, h1, h2, ihl h]

end PutGetLemmas

section RemoveLemmas

variable [LinearOrder K]

/-- A `remove` walk that returns empty left the tree untouched. -/
theorem Node.remove_ok_none_eq (t : Node K V) (k : K) (t2 : Node K V)
    (h : t.remove k = .ok (t2, none)) : t2 = t := by
  induction t generalizing t2 with
  | nil =>
    simp [Node.remove] at h
    exact h.symm
  | node cur val l r ihl ihr =>
    by_cases h1 : cur = k
    · cases l <;> cases r <;> simp [Node.remove, h1] at h
    · by_cases h2 : k > cur
      · cases hr : r.remove k with
        | error e => simp [Node.remove, h1, h2, hr] at h
        | ok p =>
          obtain ⟨r2, res⟩ := p
          simp [Node.remove, h1, h2, hr] at h
          obtain ⟨ht2, hres⟩ := h
          subst hres
          rw [← ht2, ihr r2 hr]
      · cases hl : l.remove k with
        | error e => simp [Node.remove, h1, h2, hl] at h
        | ok p =>
          obtain ⟨l2, res⟩ := p
          simp [Node.remove, h1, h2, hl] at h
          obtain ⟨ht2, hres⟩ := h
          subst hres
          rw [← ht2, ihl l2 hl]

/-- Removing an absent key returns empty and the identical tree. -/
theorem Node.remove_of_get_none (t : Node K V) (k : K)
    (h : t.get k = none) : t.remove k = .ok (t, none) := by
  induction t with
  | nil => simp [Node.remove]
  | node cur val l r ihl ihr =>
    by_cases h1 : cur = k
    · simp [Node.get, h1] at h
    · by_cases h2 : k > cur
      · simp [Node.get, h1, h2] at h
        simp [Node.remove, h1, h2, ihr h]
      · simp [Node.get, h1, h2] at h
        simp [Node.remove, h1, h2, ihl h]

/-- A successful removal returns the value `get` saw at that key. -/
theorem Node.remove_ok_some_get (t : Node K V) (k : K) (t2 : Node K V)
    (v : V) (h : t.remove k = .ok (t2, some v)) : t.get k = some v := by
  induction t generalizing t2 with
  | nil => simp [Node.remove] at h
  | node cur val l r ihl ihr =>
    by_cases h1 : cur = k
    · cases l <;> cases r <;> simp [Node.remove, h1] at h <;>
        simp [Node.get, h1, h.2]
    · by_cases h2 : k > cur
      · cases hr : r.remove k with
        | error e => simp [Node.remove, h1, h2, hr] at h
        | ok p =>
          obtain ⟨r2, res⟩ := p
          simp [Node.remove, h1, h2, hr] at h
          obtain ⟨ht2, hres⟩ := h
          subst hres
          simp [Node.get, h1, h2, ihr r2 hr]
      · cases hl : l.remove k with
        | error e => simp [Node.remove, h1, h2, hl] at h
        | ok p =>
          obtain ⟨l2, res⟩ := p
          simp [Node.remove, h1, h2, hl] at h
          obtain ⟨ht2, hres⟩ := h
          subst hres
          simp [Node.get, h1, h2, ihl l2 hl]

/-- A successful removal shrinks the node count by exactly one. -/
theorem Node.remove_ok_some_size (t : Node K V) (k : K) (t2 : Node K V)
    (v : V) (h : t.remove k = .ok (t2, some v)) : t2.size + 1 = t.size := by
  induction t generalizing t2 with
  | nil => simp [Node.remove] at h
  | node cur val l r ihl ihr =>
    by_cases h1 : cur = k
    · cases l <;> cases r <;> simp [Node.remove, h1] at h
      rw [← h.1]
      simp [Node.size]
    · by_cases h2 : k > cur
      · cases hr : r.remove k with
        | error e => simp [Node.remove, h1, h2, hr] at h
        | ok p =>
          obtain ⟨r2, res⟩ := p
          simp [Node.remove, h1, h2, hr] at h
          obtain ⟨ht2, hres⟩ := h
          subst hres
          rw [← ht2]
          have := ihr r2 hr
          simp [Node.size]
          omega
      · cases hl : l.remove k with
        | error e => simp [Node.remove, h1, h2, hl] at h
        | ok p =>
          obtain ⟨l2, res⟩ := p
          simp [Node.remove, h1, h2, hl] at h
          obtain ⟨ht2, hres⟩ := h
          subst hres
          rw [← ht2]
          have := ihl l2 hl
          simp [Node.size]
          omega

/-- After a successful removal the removed key is gone. -/
theorem Node.remove_ok_some_get_none (t : Node K V) (k : K) (t2 : Node K V)
    (v : V) (h : t.remove k = .ok (t2, some v)) : t2.get k = none := by
  induction t generalizing t2 with
  | nil => simp [Node.remove] at h
  | node cur val l r ihl ihr =>
    by_cases h1 : cur = k
    · cases l <;> cases r <;> simp [Node.remove, h1] at h
      rw [← h.1]
      simp [Node.get]
    · by_cases h2 : k > cur
      · cases hr : r.remove k with
        | error e => simp [Node.remove, h1, h2, hr] at h
        | ok p =>
          obtain ⟨r2, res⟩ := p
          simp [Node.remove, h1, h2, hr] at h
          obtain ⟨ht2, hres⟩ := h
          subst hres
          rw [← ht2]
          simp [Node.get, h1, h2, ihr r2 hr]
      · cases hl : l.remove k with
        | error e => simp [Node.remove, h1, h2, hl] at h
        | ok p =>
          obtain ⟨l2, res⟩ := p
          simp [Node.remove, h1, h2, hl] at h
          obtain ⟨ht2, hres⟩ := h
          subst hres
          rw [← ht2]
          simp [Node.get, h1, h2, ihl l2 hl]

end RemoveLemmas

section FrameFindLemmas

variable [LinearOrder K]

/-- A non-throwing `remove k` does not affect the lookup of any other
key. -/
theorem Node.remove_frame (t : Node K V) (k : K) (t2 : Node K V)
    (res : Option V) (h : t.remove k = .ok (t2, res)) (k2 : K)
    (hne : k2 ≠ k) : t2.get k2 = t.get k2 := by
  induction t generalizing t2 res with
  | nil =>
    simp [Node.remove] at h
    rw [← h.1]
  | node cur val l r ihl ihr =>
    by_cases h1 : cur = k
    · cases l <;> cases r <;> simp [Node.remove, h1] at h
      rw [← h.1]
      subst h1
      simp [Node.get, Ne.symm hne]
    · by_cases h2 : k > cur
      · cases hr : r.remove k with
        | error e => simp [Node.remove, h1, h2, hr] at h
        | ok p =>
          obtain ⟨r2, res2⟩ := p
          simp [Node.remove, h1, h2, hr] at h
          obtain ⟨ht2, hres⟩ := h
          rw [← ht2]
          by_cases h3 : cur = k2
          · subst h3
            simp [Node.get]
          · simp [Node.get, h3, ihr r2 res2 hr]
      · cases hl : l.remove k with
        | error e => simp [Node.remove, h1, h2, hl] at h
        | ok p =>
          obtain ⟨l2, res2⟩ := p
          simp [Node.remove, h1, h2, hl] at h
          obtain ⟨ht2, hres⟩ := h
          rw [← ht2]
          by_cases h3 : cur = k2
          · subst h3
            simp [Node.get]
          · simp [Node.get, h3, ihl l2 res2 hl]

/-- The search walk only ever stops at a node carrying the searched
key. -/
theorem Node.findNode_key (t : Node K V) (k k0 : K) (v : V)
    (l0 r0 : Node K V) (h : t.findNode k = some (.node k0 v l0 r0)) :
    k0 = k := by
  induction t with
  | nil => simp [Node.findNode] at h
  | node cur val l r ihl ihr =>
    by_cases h1 : cur = k
    · simp [Node.findNode, h1] at h
      rw [← h.1]
    · by_cases h2 : k > cur
      · simp [Node.findNode, h1, h2] at h
        exact ihr h
      · simp [Node.findNode, h1, h2] at h
        exact ihl h

/-- When the walk finds a leaf node, `remove` succeeds and returns that
node's value. -/
theorem Node.remove_of_findNode_leaf (t : Node K V) (k k0 : K) (v : V)
    (h : t.findNode k = some (.node k0 v .nil .nil)) :
    ∃ t2, t.remove k = .ok (t2, some v) := by
  induction t with
  | nil => simp [Node.findNode] at h
  | node cur val l r ihl ihr =>
    by_cases h1 : cur = k
    · simp [Node.findNode, h1] at h
      obtain ⟨hk, hv, hl, hr⟩ := h
      subst hv hl hr
      exact ⟨.nil, by simp [Node.remove, h1]⟩
    · by_cases h2 : k > cur
      · simp [Node.findNode, h1, h2] at h
        obtain ⟨r2, hr2⟩ := ihr h
        exact ⟨.node cur val l r2, by simp [Node.remove, h1, h2, hr2]⟩
      · simp [Node.findNode, h1, h2] at h
        obtain ⟨l2, hl2⟩ := ihl h
        exact ⟨.node cur val l2 r, by simp [Node.remove, h1, h2, hl2]⟩

/-- When the walk finds a node with at least one child, `remove` throws
the fixed message. -/
theorem Node.remove_of_findNode_nonleaf (t : Node K V) (k k0 : K) (v : V)
    (l0 r0 : Node K V) (h : t.findNode k = some (.node k0 v l0 r0))
    (hc : l0 ≠ .nil ∨ r0 ≠ .nil) :
    t.remove k = .error removeErrorMsg := by
  induction t with
  | nil => simp [Node.findNode] at h
  | node cur val l r ihl ihr =>
    by_cases h1 : cur = k
    · simp [Node.findNode, h1] at h
      obtain ⟨hk, hv, hl, hr⟩ := h
      subst hl hr
      clear ihl ihr
      cases l <;> cases r <;> simp [Node.remove, h1] <;> simp at hc
    · by_cases h2 : k > cur
      · simp [Node.findNode, h1, h2] at h
        simp [Node.remove, h1, h2, ihr h]
      · simp [Node.findNode, h1, h2] at h
        simp [Node.remove, h1, h2, ihl h]

/-- A `put` of an absent key leaves a fresh leaf node holding the pair
at the end of the search walk. -/
theorem Node.findNode_put_of_get_none (t : Node K V) (k : K) (v : V)
    (h : t.get k = none) :
    (t.put k v).1.findNode k = some (.node k v .nil .nil) := by
  induction t with
  | nil => simp [Node.put, Node.findNode]
  | node cur val l r ihl ihr =>
    by_cases h1 : cur = k
    · simp [Node.get, h1] at h
    · by_cases h2 : k > cur
      · simp [Node.get, h1, h2] at h
        simp [Node.put, Node.findNode, h1, h2, ihr h]
      · simp [Node.get, h1, h2] at h
        simp [Node.put, Node.findNode, h1, h2, ihl h]

end FrameFindLemmas

section InvariantLemmas

variable [LinearOrder K]

/-- `ForallKeys` is a statement about the in-order key list. -/
theorem Node.forallKeys_iff (p : K → Prop) (t : Node K V) :
    t.ForallKeys p ↔ ∀ pr ∈ t.inorder, p pr.1 := by
  induction t with
  | nil => simp [Node.ForallKeys, Node.inorder]
  | node cur val l r ihl ihr =>
    constructor
    · rintro ⟨hp, hl, hr⟩ pr hpr
      simp [Node.inorder] at hpr
      rcases hpr with h | h | h
      · exact ihl.mp hl pr h
      · rw [h]
        exact hp
      · exact ihr.mp hr pr h
    · intro hall
      refine ⟨hall (cur, val) (by simp [Node.inorder]), ihl.mpr ?_, ihr.mpr ?_⟩
      · intro pr h
        exact hall pr (by simp [Node.inorder, h])
      · intro pr h
        exact hall pr (by simp [Node.inorder, h])

/-- `put` preserves any key bound that covers the new key. -/
theorem Node.forallKeys_put (p : K → Prop) (t : Node K V) (k : K) (v : V)
    (hf : t.ForallKeys p) (hp : p k) : (t.put k v).1.ForallKeys p := by
  induction t with
  | nil => simpa [Node.put, Node.ForallKeys] using hp
  | node cur val l r ihl ihr =>
    obtain ⟨h1, h2, h3⟩ := hf
    by_cases hk : cur = k
    · subst hk
      simpa [Node.put, Node.ForallKeys] using ⟨h1, h2, h3⟩
    · by_cases hg : k > cur
      · exact by simpa [Node.put, hk, hg, Node.ForallKeys] using ⟨h1, h2, ihr h3⟩
      · exact by simpa [Node.put, hk, hg, Node.ForallKeys] using ⟨h1, ihl h2, h3⟩

/-- `put` preserves the BST ordering invariant. -/
theorem Node.bst_put (t : Node K V) (k : K) (v : V) (hb : t.BST) :
    (t.put k v).1.BST := by
  induction t with
  | nil => simp [Node.put, Node.BST, Node.ForallKeys]
  | node cur val l r ihl ihr =>
    obtain ⟨h1, h2, h3, h4⟩ := hb
    by_cases hk : cur = k
    · subst hk
      simpa [Node.put, Node.BST] using ⟨h1, h2, h3, h4⟩
    · by_cases hg : k > cur
      · exact by
          simpa [Node.put, hk, hg, Node.BST] using
            ⟨h1, forallKeys_put _ r k v h2 hg, h3, ihr h4⟩
      · have hlt : k < cur :=
          lt_of_le_of_ne (not_lt.mp hg) (fun he => hk he.symm)
        exact by
          simpa [Node.put, hk, hg, Node.BST] using
            ⟨forallKeys_put _ l k v h1 hlt, h2, ihl h3, h4⟩

/-- A non-throwing `remove` only ever drops keys, so any key bound is
preserved. -/
theorem Node.forallKeys_remove (p : K → Prop) (t : Node K V) (k : K)
    (t2 : Node K V) (res : Option V) (h : t.remove k = .ok (t2, res))
    (hf : t.ForallKeys p) : t2.ForallKeys p := by
  induction t generalizing t2 res with
  | nil =>
    simp [Node.remove] at h
    rw [← h.1]
    exact hf
  | node cur val l r ihl ihr =>
    obtain ⟨h1, h2, h3⟩ := hf
    by_cases hk : cur = k
    · cases l <;> cases r <;> simp [Node.remove, hk] at h
      rw [← h.1]
      simp [Node.ForallKeys]
    · by_cases hg : k > cur
      · cases hr : r.remove k with
        | error e => simp [Node.remove, hk, hg, hr] at h
        | ok p2 =>
          obtain ⟨r2, res2⟩ := p2
          simp [Node.remove, hk, hg, hr] at h
          rw [← h.1]
          exact ⟨h1, h2, ihr r2 res2 hr h3⟩
      · cases hl : l.remove k with
        | error e => simp [Node.remove, hk, hg, hl] at h
        | ok p2 =>
          obtain ⟨l2, res2⟩ := p2
          simp [Node.remove, hk, hg, hl] at h
          rw [← h.1]
          exact ⟨h1, ihl l2 res2 hl h2, h3⟩

/-- A non-throwing `remove` preserves the BST ordering invariant. -/
theorem Node.bst_remove (t : Node K V) (k : K) (t2 : Node K V)
    (res : Option V) (h : t.remove k = .ok (t2, res)) (hb : t.BST) :
    t2.BST := by
  induction t generalizing t2 res with
  | nil =>
    simp [Node.remove] at h
    rw [← h.1]
    exact hb
  | node cur val l r ihl ihr =>
    obtain ⟨h1, h2, h3, h4⟩ := hb
    by_cases hk : cur = k
    · cases l <;> cases r <;> simp [Node.remove, hk] at h
      rw [← h.1]
      simp [Node.BST]
    · by_cases hg : k > cur
      · cases hr : r.remove k with
        | error e => simp [Node.remove, hk, hg, hr] at h
        | ok p2 =>
          obtain ⟨r2, res2⟩ := p2
          simp [Node.remove, hk, hg, hr] at h
          rw [← h.1]
          exact ⟨h1, forallKeys_remove _ r k r2 res2 hr h2, h3,
            ihr r2 res2 hr h4⟩
      · cases hl : l.remove k with
        | error e => simp [Node.remove, hk, hg, hl] at h
        | ok p2 =>
          obtain ⟨l2, res2⟩ := p2
          simp [Node.remove, hk, hg, hl] at h
          rw [← h.1]
          exact ⟨forallKeys_remove _ l k l2 res2 hl h1, h2,
            ihl l2 res2 hl h3, h4⟩

end InvariantLemmas

section InorderLemmas

variable [LinearOrder K]

/-- Unfolding of the key list at a node. -/
theorem Node.keys_node (cur : K) (val : V) (l r : Node K V) :
    (Node.node cur val l r).keys = l.keys ++ cur :: r.keys := by
  simp [Node.keys, Node.inorder]

/-- `ForallKeys` is a statement about the key list. -/
theorem Node.forallKeys_iff_keys (p : K → Prop) (t : Node K V) :
    t.ForallKeys p ↔ ∀ a ∈ t.keys, p a := by
  rw [Node.forallKeys_iff]
  constructor
  · intro h a ha
    obtain ⟨pr, hpr, hfst⟩ := List.mem_map.mp ha
    rw [← hfst]
    exact h pr hpr
  · intro h pr hpr
    exact h pr.1 (List.mem_map_of_mem Prod.fst hpr)

/-- The node count is the length of the in-order listing. -/
theorem Node.size_eq_inorder_length (t : Node K V) :
    t.size = t.inorder.length := by
  induction t with
  | nil => simp [Node.size, Node.inorder]
  | node cur val l r ihl ihr => simp [Node.size, Node.inorder, ihl, ihr]; omega

/-- On a BST, the in-order key list is strictly increasing. -/
theorem Node.keys_sorted (t : Node K V) (hb : t.BST) :
    t.keys.Sorted (· < ·) := by
  induction t with
  | nil => simp [Node.keys, Node.inorder]
  | node cur val l r ihl ihr =>
    obtain ⟨h1, h2, h3, h4⟩ := hb
    rw [Node.keys_node]
    refine List.pairwise_append.mpr
      ⟨ihl h3, List.pairwise_cons.mpr ⟨?_, ihr h4⟩, ?_⟩
    · intro b hbmem
      exact (Node.forallKeys_iff_keys _ r).mp h2 b hbmem
    · intro a hamem b hbmem
      have hac : a < cur := (Node.forallKeys_iff_keys _ l).mp h1 a hamem
      rcases List.mem_cons.mp hbmem with hb1 | hb2
      · rw [hb1]
        exact hac
      · exact hac.trans ((Node.forallKeys_iff_keys _ r).mp h2 b hb2)

/-- On a BST, no key appears twice. -/
theorem Node.keys_nodup (t : Node K V) (hb : t.BST) : t.keys.Nodup :=
  (Node.keys_sorted t hb).nodup

/-- A successful lookup's pair is in the in-order listing. -/
theorem Node.get_some_mem (t : Node K V) (k : K) (v : V)
    (h : t.get k = some v) : (k, v) ∈ t.inorder := by
  induction t with
  | nil => simp [Node.get] at h
  | node cur val l r ihl ihr =>
    by_cases h1 : cur = k
    · simp [Node.get, h1] at h
      simp [Node.inorder, h1, h]
    · by_cases h2 : k > cur
      · simp [Node.get, h1, h2] at h
        simp [Node.inorder, ihr h]
      · simp [Node.get, h1, h2] at h
        simp [Node.inorder, ihl h]

/-- On a BST, every pair of the in-order listing is found by `get`. -/
theorem Node.get_of_mem_inorder (t : Node K V) (k : K) (v : V)
    (hb : t.BST) (h : (k, v) ∈ t.inorder) : t.get k = some v := by
  induction t with
  | nil => simp [Node.inorder] at h
  | node cur val l r ihl ihr =>
    obtain ⟨h1, h2, h3, h4⟩ := hb
    simp [Node.inorder] at h
    rcases h with h | h | h
    · have hk : k < cur := (Node.forallKeys_iff _ l).mp h1 (k, v) h
      simp [Node.get, hk.ne', hk.asymm, ihl h3 h]
    · obtain ⟨hk, hv⟩ := h
      simp [Node.get, hk, hv]
    · have hk : cur < k := (Node.forallKeys_iff _ r).mp h2 (k, v) h
      simp [Node.get, hk.ne, hk, ihr h4 h]

/-- Overwriting an existing key leaves the key list unchanged. -/
theorem Node.keys_put_of_get_some (t : Node K V) (k : K) (v v0 : V)
    (h : t.get k = some v0) : (t.put k v).1.keys = t.keys := by
  induction t with
  | nil => simp [Node.get] at h
  | node cur val l r ihl ihr =>
    by_cases h1 : cur = k
    · simp [Node.put, h1, Node.keys_node]
    · by_cases h2 : k > cur
      · simp [Node.get, h1, h2] at h
        simp [Node.put, h1, h2, Node.keys_node, ihr h]
      · simp [Node.get, h1, h2] at h
        simp [Node.put, h1, h2, Node.keys_node, ihl h]

end InorderLemmas

section RunLemmas

variable [LinearOrder K]

/-- The freshly constructed map satisfies the invariant. -/
theorem BSTMap.inv_empty : (BSTMap.empty K V).Inv :=
  ⟨trivial, rfl⟩

/-- Every API call preserves the representation invariant. -/
theorem BSTMap.inv_applyOp (m : BSTMap K V) (op : Op K V) (h : m.Inv) :
    (m.applyOp op).Inv := by
  obtain ⟨hb, hs⟩ := h
  cases op with
  | put k v =>
    cases hp : (m.root.put k v).2 with
    | none =>
      have hg : m.root.get k = none := by rw [← Node.put_snd m.root k v, hp]
      refine ⟨?_, ?_⟩ <;> simp [BSTMap.applyOp, BSTMap.put, hp]
      · exact Node.bst_put m.root k v hb
      · rw [Node.size_put_of_get_none m.root k v hg, hs]
    | some o =>
      have hg : m.root.get k = some o := by rw [← Node.put_snd m.root k v, hp]
      refine ⟨?_, ?_⟩ <;> simp [BSTMap.applyOp, BSTMap.put, hp]
      · exact Node.bst_put m.root k v hb
      · rw [Node.size_put_of_get_some m.root k v o hg, hs]
  | rem k =>
    cases hr : m.root.remove k with
    | error e => simpa [BSTMap.applyOp, BSTMap.remove, hr] using ⟨hb, hs⟩
    | ok p =>
      obtain ⟨t, res⟩ := p
      cases res with
      | none =>
        have ht : t = m.root := Node.remove_ok_none_eq m.root k t hr
        subst ht
        simpa [BSTMap.applyOp, BSTMap.remove, hr] using ⟨hb, hs⟩
      | some v =>
        have h1 := Node.remove_ok_some_size m.root k t v hr
        refine ⟨?_, ?_⟩ <;> simp [BSTMap.applyOp, BSTMap.remove, hr]
        · exact Node.bst_remove m.root k t _ hr hb
        · omega
  | get k => exact ⟨hb, hs⟩

/-- The invariant holds along any run of API calls. -/
theorem BSTMap.inv_foldl (ops : List (Op K V)) (m : BSTMap K V)
    (h : m.Inv) : (ops.foldl BSTMap.applyOp m).Inv := by
  induction ops generalizing m with
  | nil => exact h
  | cons op rest ih => exact ih _ (BSTMap.inv_applyOp m op h)

/-- Every reachable map state satisfies the representation invariant. -/
theorem BSTMap.inv_run (ops : List (Op K V)) : (BSTMap.run ops).Inv :=
  BSTMap.inv_foldl ops _ BSTMap.inv_empty

end RunLemmas

section ToStringLemmas

variable [LinearOrder K] [ToString K] [ToString V]

/-- The explicit-stack loop emits the in-order text of the current node
followed by the text owed by the stack. -/
theorem Node.inOrderLoop_spec (t : Node K V) (stack : List (Node K V))
    (acc : String) :
    Node.inOrderLoop t stack acc = acc ++ (t.inorderStr ++ emitStack stack) := by
  induction t, stack, acc using Node.inOrderLoop.induct with
  | case1 k v l r stack acc ih =>
    rw [Node.inOrderLoop, ih]
    simp [Node.inorderStr, emitStack, String.append_assoc]
  | case2 acc =>
    simp [Node.inOrderLoop, Node.inorderStr, emitStack, String.append_empty]
  | case3 k v l r stack acc ih =>
    rw [Node.inOrderLoop, ih]
    simp [Node.inorderStr, emitStack, String.append_assoc,
      String.empty_append]
  | case4 stack acc ih =>
    rw [Node.inOrderLoop, ih]
    simp [Node.inorderStr, emitStack, String.empty_append]

/-- The traversal text of a subtree is the rendering of its in-order
pair list. -/
theorem Node.inorderStr_eq_renderPairs (t : Node K V) :
    t.inorderStr = renderPairs t.inorder := by
  have happ : ∀ ps qs : List (K × V),
      renderPairs (ps ++ qs) = renderPairs ps ++ renderPairs qs := by
    intro ps qs
    induction ps with
    | nil => simp [renderPairs, String.empty_append]
    | cons p ps ih => simp [renderPairs, ih, String.append_assoc]
  induction t with
  | nil => rfl
  | node cur val l r ihl ihr =>
    simp [Node.inorderStr, Node.inorder, happ, renderPairs, ihl, ihr,
      String.append_assoc]

/-- `toString` renders exactly the bracketed in-order pair list. -/
theorem BSTMap.toString_eq (m : BSTMap K V) :
    m.toString = "[ " ++ renderPairs m.root.inorder ++ "]" := by
  rw [BSTMap.toString, Node.inOrderLoop_spec, Node.inorderStr_eq_renderPairs]
  simp [emitStack, String.append_empty]

end ToStringLemmas

section MapHelperLemmas

variable [LinearOrder K]

/-- The `optional` returned by `put` is the previous binding of the
key. -/
theorem BSTMap.put_prev_binding (m : BSTMap K V) (k : K) (v : V) :
    (m.put k v).2 = m.root.get k := by
  rw [← Node.put_snd m.root k v]
  cases hp : (m.root.put k v).2 <;> simp [BSTMap.put, hp]

/-- The tree after a map-level `put` is the tree-level `put`. -/
theorem BSTMap.put_root (m : BSTMap K V) (k : K) (v : V) :
    (m.put k v).1.root = (m.root.put k v).1 := by
  cases hp : (m.root.put k v).2 <;> simp [BSTMap.put, hp]

/-- `put` of an absent key bumps `size_`. -/
theorem BSTMap.put_size_of_none (m : BSTMap K V) (k : K) (v : V)
    (h : m.root.get k = none) : (m.put k v).1.size_ = m.size_ + 1 := by
  have hp : (m.root.put k v).2 = none := by rw [Node.put_snd, h]
  simp [BSTMap.put, hp]

/-- `put` of a present key leaves `size_` alone. -/
theorem BSTMap.put_size_of_some (m : BSTMap K V) (k : K) (v o : V)
    (h : m.root.get k = some o) : (m.put k v).1.size_ = m.size_ := by
  have hp : (m.root.put k v).2 = some o := by rw [Node.put_snd, h]
  simp [BSTMap.put, hp]

/-- Unpack a successful map-level removal into its tree-level parts. -/
theorem BSTMap.remove_ok_some_cases (m : BSTMap K V) (k : K)
    (m2 : BSTMap K V) (v : V) (h : m.remove k = .ok (m2, some v)) :
    m.root.remove k = .ok (m2.root, some v) ∧ m2.size_ = m.size_ - 1 := by
  cases hr : m.root.remove k with
  | error e => simp [BSTMap.remove, hr] at h
  | ok p =>
    obtain ⟨t, res⟩ := p
    cases res with
    | none => simp [BSTMap.remove, hr] at h
    | some w =>
      simp [BSTMap.remove, hr] at h
      obtain ⟨hm2, hw⟩ := h
      subst hw
      constructor
      · rw [← hm2]
      · rw [← hm2]

/-- A map-level removal that returns empty changed nothing. -/
theorem BSTMap.remove_ok_none_cases (m : BSTMap K V) (k : K)
    (m2 : BSTMap K V) (h : m.remove k = .ok (m2, none)) : m2 = m := by
  cases hr : m.root.remove k with
  | error e => simp [BSTMap.remove, hr] at h
  | ok p =>
    obtain ⟨t, res⟩ := p
    cases res with
    | some w => simp [BSTMap.remove, hr] at h
    | none =>
      simp [BSTMap.remove, hr] at h
      rw [← h, Node.remove_ok_none_eq m.root k t hr]

/-- Lift a successful tree-level removal to the map level. -/
theorem BSTMap.remove_of_root_ok_some (m : BSTMap K V) (k : K)
    (t : Node K V) (v : V) (h : m.root.remove k = .ok (t, some v)) :
    m.remove k = .ok (⟨m.size_ - 1, t⟩, some v) := by
  simp [BSTMap.remove, h]

/-- Lift a tree-level throw to the map level. -/
theorem BSTMap.remove_of_root_error (m : BSTMap K V) (k : K) (e : String)
    (h : m.root.remove k = .error e) : m.remove k = .error e := by
  simp [BSTMap.remove, h]

/-- Removing an absent key returns empty and the identical map. -/
theorem BSTMap.remove_absent (m : BSTMap K V) (k : K)
    (h : m.root.get k = none) : m.remove k = .ok (m, none) := by
  simp [BSTMap.remove, Node.remove_of_get_none m.root k h]

end MapHelperLemmas

section OpFrameLemmas

variable [LinearOrder K]

/-- An API call that is neither `put k` nor `remove k` does not change
what `get k` returns. -/
theorem BSTMap.get_applyOp_other (m : BSTMap K V) (op : Op K V) (k : K)
    (h1 : ∀ v2, op ≠ Op.put k v2) (h2 : op ≠ Op.rem k) :
    (m.applyOp op).get k = m.get k := by
  cases op with
  | put k2 v2 =>
    have hne : k ≠ k2 := fun he => h1 v2 (by rw [he])
    show (m.put k2 v2).1.root.get k = m.root.get k
    rw [BSTMap.put_root]
    exact Node.get_put_frame m.root k2 k v2 hne
  | rem k2 =>
    have hne : k ≠ k2 := fun he => h2 (by rw [he])
    cases hr : m.root.remove k2 with
    | error e => simp [BSTMap.applyOp, BSTMap.remove, hr, BSTMap.get]
    | ok p =>
      obtain ⟨t, res⟩ := p
      cases res with
      | none =>
        simp [BSTMap.applyOp, BSTMap.remove, hr, BSTMap.get]
        exact Node.remove_frame m.root k2 t none hr k hne
      | some w =>
        simp [BSTMap.applyOp, BSTMap.remove, hr, BSTMap.get]
        exact Node.remove_frame m.root k2 t (some w) hr k hne
  | get k2 => rfl

/-- An API call that is not a `put k` keeps an absent key absent (a
`remove k` of an absent key changes nothing). -/
theorem BSTMap.get_none_applyOp (m : BSTMap K V) (op : Op K V) (k : K)
    (h0 : m.get k = none) (h1 : ∀ v2, op ≠ Op.put k v2) :
    (m.applyOp op).get k = none := by
  by_cases h2 : op = Op.rem k
  · subst h2
    have hrm := BSTMap.remove_absent m k h0
    simp [BSTMap.applyOp, hrm]
    exact h0
  · rw [BSTMap.get_applyOp_other m op k h1 h2]
    exact h0

/-- Running calls that never touch key `k` does not change what `get k`
returns. -/
theorem BSTMap.get_foldl_other (ops : List (Op K V)) (m : BSTMap K V)
    (k : K) (h : ∀ op ∈ ops, (∀ v2, op ≠ Op.put k v2) ∧ op ≠ Op.rem k) :
    (ops.foldl BSTMap.applyOp m).get k = m.get k := by
  induction ops generalizing m with
  | nil => rfl
  | cons op rest ih =>
    have hop := h op (List.mem_cons_self op rest)
    rw [List.foldl_cons, ih _ (fun o ho => h o (List.mem_cons_of_mem op ho)),
      BSTMap.get_applyOp_other m op k hop.1 hop.2]

/-- Running calls that never `put k` keeps key `k` absent. -/
theorem BSTMap.get_none_foldl (ops : List (Op K V)) (m : BSTMap K V)
    (k : K) (h0 : m.get k = none)
    (h : ∀ op ∈ ops, ∀ v2, op ≠ Op.put k v2) :
    (ops.foldl BSTMap.applyOp m).get k = none := by
  induction ops generalizing m with
  | nil => exact h0
  | cons op rest ih =>
    rw [List.foldl_cons]
    exact ih _ (BSTMap.get_none_applyOp m op k h0
      (h op (List.mem_cons_self op rest)))
      (fun o ho => h o (List.mem_cons_of_mem op ho))

end OpFrameLemmas

/-- C1: For every map state reachable by any sequence of put/get/remove
calls, the BST ordering invariant holds — at every node all keys of the
left subtree are strictly smaller and all keys of the right subtree
strictly larger than the node's key — and no two nodes carry equal keys
(the in-order key list has no duplicates). -/
theorem claim_C1_ordering_invariant {K V : Type} [LinearOrder K]
    (ops : List (Op K V)) :
    (BSTMap.run ops).root.BST ∧ (BSTMap.run ops).root.keys.Nodup :=
  ⟨(BSTMap.inv_run ops).1, Node.keys_nodup _ (BSTMap.inv_run ops).1⟩

/-- C3: If the search walk finds the key at a node with at least one
child, `remove` raises the error carrying exactly the message
"ERROR: Only leaf nodes can be removed.", and the map state (tree and
count) is unchanged by the call. -/
theorem claim_C3_nonleaf_remove_error {K V : Type} [LinearOrder K]
    (m : BSTMap K V) (k k0 : K) (v : V) (l r : Node K V)
    (hfind : m.root.findNode k = some (.node k0 v l r))
    (hchild : l ≠ .nil ∨ r ≠ .nil) :
    m.remove k = .error "ERROR: Only leaf nodes can be removed." ∧
    m.applyOp (Op.rem k) = m := by
  have he := Node.remove_of_findNode_nonleaf m.root k k0 v l r hfind hchild
  have h1 : m.remove k = .error removeErrorMsg :=
    BSTMap.remove_of_root_error m k _ he
  exact ⟨h1, by simp [BSTMap.applyOp, h1]⟩

/-- Witness for C3: in the map built by put(1,"a"), put(2,"b"), key 1
sits at a node with a right child, so remove(1) throws. -/
theorem claim_C3_nonleaf_remove_error_witness :
    (BSTMap.run [Op.put (1 : Int) "a", Op.put 2 "b"]).remove 1 =
      .error "ERROR: Only leaf nodes can be removed." :=
  (claim_C3_nonleaf_remove_error
    (BSTMap.run [Op.put (1 : Int) "a", Op.put 2 "b"])
    1 1 "a" .nil (.node 2 "b" .nil .nil)
    (by decide) (Or.inr (by decide))).1

/-- C6: `put` of an absent key returns an empty result (fresh
insertion), increments `size()` by one, and creates a new leaf node
holding the pair at the empty slot reached by the search walk (the walk
now finds exactly that childless node). -/
theorem claim_C6_put_new_key {K V : Type} [LinearOrder K]
    (m : BSTMap K V) (k : K) (v : V) (habs : m.root.get k = none) :
    (m.put k v).2 = none ∧
    (m.put k v).1.size = m.size + 1 ∧
    (m.put k v).1.root.findNode k = some (.node k v .nil .nil) := by
  refine ⟨?_, BSTMap.put_size_of_none m k v habs, ?_⟩
  · rw [BSTMap.put_prev_binding, habs]
  · rw [BSTMap.put_root]
    exact Node.findNode_put_of_get_none m.root k v habs

/-- Witness for C6: putting key 1 into the empty map. -/
theorem claim_C6_put_new_key_witness :
    ((BSTMap.empty Int String).put 1 "a").2 = none ∧
    ((BSTMap.empty Int String).put 1 "a").1.size =
      (BSTMap.empty Int String).size + 1 ∧
    ((BSTMap.empty Int String).put 1 "a").1.root.findNode 1 =
      some (.node 1 "a" .nil .nil) :=
  claim_C6_put_new_key (BSTMap.empty Int String) 1 "a" (by decide)

/-- C10: A successful (leaf) removal of key `k` changes no other entry:
any other key that was bound before is still bound to the same value
afterwards. -/
theorem claim_C10_remove_frame {K V : Type} [LinearOrder K]
    (m : BSTMap K V) (k : K) (m2 : BSTMap K V) (v : V)
    (h : m.remove k = .ok (m2, some v)) (k2 : K) (hne : k2 ≠ k) (w : V)
    (hw : m.get k2 = some w) : m2.get k2 = some w := by
  obtain ⟨hr, _⟩ := BSTMap.remove_ok_some_cases m k m2 v h
  show m2.root.get k2 = some w
  rw [Node.remove_frame m.root k m2.root (some v) hr k2 hne]
  exact hw

/-- Witness for C10: removing leaf 2 from the map built by put(1,"a"),
put(2,"b") leaves key 1 bound to "a". -/
theorem claim_C10_remove_frame_witness :
    (⟨1, .node 1 "a" .nil .nil⟩ : BSTMap Int String).get 1 = some "a" :=
  claim_C10_remove_frame
    (BSTMap.run [Op.put (1 : Int) "a", Op.put 2 "b"]) 2
    ⟨1, .node 1 "a" .nil .nil⟩ "b" (by rfl) 1 (by decide) "a" (by decide)

/-- C2: In every reachable map state, `size()` equals the number of
nodes reachable from `root`, which is the number of distinct keys
present; a put of a new key increments it by 1, a put of an existing
key leaves it unchanged, a successful leaf removal decrements it by 1,
and a failed (throwing) or absent-key removal leaves the state
unchanged. -/
theorem claim_C2_size_consistency {K V : Type} [LinearOrder K]
    (ops : List (Op K V)) :
    (BSTMap.run ops).size = (BSTMap.run ops).root.size ∧
    (BSTMap.run ops).size = (BSTMap.run ops).root.keys.length ∧
    (BSTMap.run ops).root.keys.Nodup ∧
    (∀ k v, ((BSTMap.run ops).put k v).2 = none →
      ((BSTMap.run ops).put k v).1.size = (BSTMap.run ops).size + 1) ∧
    (∀ k v o, ((BSTMap.run ops).put k v).2 = some o →
      ((BSTMap.run ops).put k v).1.size = (BSTMap.run ops).size) ∧
    (∀ k m2 v, (BSTMap.run ops).remove k = .ok (m2, some v) →
      m2.size + 1 = (BSTMap.run ops).size) ∧
    (∀ k m2, (BSTMap.run ops).remove k = .ok (m2, none) →
      m2 = BSTMap.run ops) ∧
    (∀ k e, (BSTMap.run ops).remove k = .error e →
      (BSTMap.run ops).applyOp (Op.rem k) = BSTMap.run ops) := by
  obtain ⟨hb, hs⟩ := BSTMap.inv_run ops
  refine ⟨hs, ?_, Node.keys_nodup _ hb, ?_, ?_, ?_, ?_, ?_⟩
  · rw [BSTMap.size, hs, Node.size_eq_inorder_length, Node.keys,
      List.length_map]
  · intro k v hp
    rw [BSTMap.put_prev_binding] at hp
    exact BSTMap.put_size_of_none _ k v hp
  · intro k v o hp
    rw [BSTMap.put_prev_binding] at hp
    exact BSTMap.put_size_of_some _ k v o hp
  · intro k m2 v h
    obtain ⟨hr, hsz⟩ := BSTMap.remove_ok_some_cases _ k m2 v h
    have ht := Node.remove_ok_some_size _ k m2.root v hr
    rw [BSTMap.size, BSTMap.size]
    omega
  · intro k m2 h
    exact BSTMap.remove_ok_none_cases _ k m2 h
  · intro k e h
    simp [BSTMap.applyOp, h]

/-- Witness for C2: all four size-delta clauses exercised on the map
built by put(1,"a"), put(2,"b"). -/
theorem claim_C2_size_consistency_witness :
    ((BSTMap.run [Op.put (1 : Int) "a", Op.put 2 "b"]).put 3 "c").1.size =
      (BSTMap.run [Op.put (1 : Int) "a", Op.put 2 "b"]).size + 1 ∧
    ((BSTMap.run [Op.put (1 : Int) "a", Op.put 2 "b"]).put 1 "c").1.size =
      (BSTMap.run [Op.put (1 : Int) "a", Op.put 2 "b"]).size ∧
    (⟨1, .node 1 "a" .nil .nil⟩ : BSTMap Int String).size + 1 =
      (BSTMap.run [Op.put (1 : Int) "a", Op.put 2 "b"]).size ∧
    BSTMap.run [Op.put (1 : Int) "a", Op.put 2 "b"] =
      BSTMap.run [Op.put (1 : Int) "a", Op.put 2 "b"] ∧
    (BSTMap.run [Op.put (1 : Int) "a", Op.put 2 "b"]).applyOp (Op.rem 1) =
      BSTMap.run [Op.put (1 : Int) "a", Op.put 2 "b"] :=
  ⟨(claim_C2_size_consistency _).2.2.2.1 3 "c" (by decide),
   (claim_C2_size_consistency _).2.2.2.2.1 1 "c" "a" (by decide),
   (claim_C2_size_consistency _).2.2.2.2.2.1 2 ⟨1, .node 1 "a" .nil .nil⟩
     "b" (by rfl),
   (claim_C2_size_consistency _).2.2.2.2.2.2.1 3
     (BSTMap.run [Op.put (1 : Int) "a", Op.put 2 "b"]) (by rfl),
   (claim_C2_size_consistency _).2.2.2.2.2.2.2 1
     "ERROR: Only leaf nodes can be removed." (by rfl)⟩

/-- C4: In every reachable map state, removing a key found at a leaf
node detaches that node (the key becomes absent), decrements `size()`
by exactly one, and returns the removed value; removing an absent key
returns an empty result without error and leaves the map unchanged. -/
theorem claim_C4_remove_leaf_or_absent {K V : Type} [LinearOrder K]
    (ops : List (Op K V)) :
    (∀ (k k0 : K) (v : V),
      (BSTMap.run ops).root.findNode k = some (.node k0 v .nil .nil) →
      ∃ m2, (BSTMap.run ops).remove k = .ok (m2, some v) ∧
        m2.size + 1 = (BSTMap.run ops).size ∧ m2.get k = none) ∧
    (∀ k, (BSTMap.run ops).get k = none →
      (BSTMap.run ops).remove k = .ok (BSTMap.run ops, none)) := by
  obtain ⟨hb, hs⟩ := BSTMap.inv_run ops
  constructor
  · intro k k0 v hfind
    obtain ⟨t, ht⟩ := Node.remove_of_findNode_leaf _ k k0 v hfind
    refine ⟨⟨(BSTMap.run ops).size_ - 1, t⟩,
      BSTMap.remove_of_root_ok_some _ k t v ht, ?_, ?_⟩
    · have hsz := Node.remove_ok_some_size _ k t v ht
      show (BSTMap.run ops).size_ - 1 + 1 = (BSTMap.run ops).size_
      omega
    · show t.get k = none
      exact Node.remove_ok_some_get_none _ k t v ht
  · intro k hg
    exact BSTMap.remove_absent _ k hg

/-- Witness for C4: in the map built by put(1,"a"), put(2,"b"), key 2
is a leaf and key 5 is absent. -/
theorem claim_C4_remove_leaf_or_absent_witness :
    (∃ m2, (BSTMap.run [Op.put (1 : Int) "a", Op.put 2 "b"]).remove 2 =
        .ok (m2, some "b") ∧
      m2.size + 1 = (BSTMap.run [Op.put (1 : Int) "a", Op.put 2 "b"]).size ∧
      m2.get 2 = none) ∧
    (BSTMap.run [Op.put (1 : Int) "a", Op.put 2 "b"]).remove 5 =
      .ok (BSTMap.run [Op.put (1 : Int) "a", Op.put 2 "b"], none) :=
  ⟨(claim_C4_remove_leaf_or_absent _).1 2 2 "b" (by decide),
   (claim_C4_remove_leaf_or_absent _).2 5 (by decide)⟩

/-- C5: A key inserted with value `v` and not subsequently overwritten
or removed is looked up as `v`; a key never inserted (in particular on
the empty map) is looked up as empty.  (`get` is embedded as a pure
function of the state: it mutates nothing.) -/
theorem claim_C5_get_round_trip {K V : Type} [LinearOrder K] :
    (∀ (ops1 ops2 : List (Op K V)) (k : K) (v : V),
      (∀ op ∈ ops2, (∀ v2, op ≠ Op.put k v2) ∧ op ≠ Op.rem k) →
      (BSTMap.run (ops1 ++ Op.put k v :: ops2)).get k = some v) ∧
    (∀ (ops : List (Op K V)) (k : K),
      (∀ op ∈ ops, ∀ v2, op ≠ Op.put k v2) →
      (BSTMap.run ops).get k = none) := by
  constructor
  · intro ops1 ops2 k v h
    rw [BSTMap.run, List.foldl_append, List.foldl_cons]
    rw [BSTMap.get_foldl_other ops2 _ k h]
    show ((ops1.foldl BSTMap.applyOp (BSTMap.empty K V)).put k v).1.root.get k
      = some v
    rw [BSTMap.put_root]
    exact Node.get_put_self _ k v
  · intro ops k h
    rw [BSTMap.run]
    exact BSTMap.get_none_foldl ops _ k rfl h

/-- Witness for C5: get(1) returns "a" right after put(1,"a"), and
get(1) returns empty after a run that never inserts key 1. -/
theorem claim_C5_get_round_trip_witness :
    (BSTMap.run ([] ++ Op.put (1 : Int) "a" :: [])).get 1 = some "a" ∧
    (BSTMap.run [Op.put (2 : Int) "b", Op.rem 1]).get 1 = none :=
  ⟨(claim_C5_get_round_trip.1) [] [] 1 "a" (by simp),
   (claim_C5_get_round_trip.2) [Op.put (2 : Int) "b", Op.rem 1] 1 (by simp)⟩

/-- C7: On a BST state, put(k,v1) followed by put(k,v2) leaves exactly
one entry for `k` (its key list is unchanged by the second put and
holds `k` exactly once), bound to `v2`; the second call returns `v1`
and does not change `size()`. -/
theorem claim_C7_put_overwrite {K V : Type} [LinearOrder K]
    (m : BSTMap K V) (k : K) (v1 v2 : V) (hb : m.root.BST) :
    (((m.put k v1).1).put k v2).2 = some v1 ∧
    (((m.put k v1).1).put k v2).1.get k = some v2 ∧
    (((m.put k v1).1).put k v2).1.root.keys.count k = 1 ∧
    (((m.put k v1).1).put k v2).1.root.keys = (m.put k v1).1.root.keys ∧
    (((m.put k v1).1).put k v2).1.size = (m.put k v1).1.size := by
  have hget1 : (m.put k v1).1.root.get k = some v1 := by
    rw [BSTMap.put_root]
    exact Node.get_put_self m.root k v1
  have hb1 : (m.put k v1).1.root.BST := by
    rw [BSTMap.put_root]
    exact Node.bst_put m.root k v1 hb
  have hget2 : (((m.put k v1).1).put k v2).1.root.get k = some v2 := by
    rw [BSTMap.put_root]
    exact Node.get_put_self (m.put k v1).1.root k v2
  have hb2 : (((m.put k v1).1).put k v2).1.root.BST := by
    rw [BSTMap.put_root]
    exact Node.bst_put (m.put k v1).1.root k v2 hb1
  refine ⟨?_, hget2, ?_, ?_, ?_⟩
  · rw [BSTMap.put_prev_binding]
    exact hget1
  · have hmem : k ∈ (((m.put k v1).1).put k v2).1.root.keys :=
      List.mem_map_of_mem Prod.fst (Node.get_some_mem _ k v2 hget2)
    exact List.count_eq_one_of_mem (Node.keys_nodup _ hb2) hmem
  · rw [BSTMap.put_root]
    exact Node.keys_put_of_get_some (m.put k v1).1.root k v2 v1 hget1
  · exact BSTMap.put_size_of_some (m.put k v1).1 k v2 v1 hget1

/-- Witness for C7: two puts of key 1 on the empty map. -/
theorem claim_C7_put_overwrite_witness :
    (((BSTMap.empty Int String).put 1 "a").1.put 1 "b").2 = some "a" ∧
    (((BSTMap.empty Int String).put 1 "a").1.put 1 "b").1.get 1 =
      some "b" ∧
    (((BSTMap.empty Int String).put 1 "a").1.put 1 "b").1.root.keys.count 1
      = 1 ∧
    (((BSTMap.empty Int String).put 1 "a").1.put 1 "b").1.root.keys =
      ((BSTMap.empty Int String).put 1 "a").1.root.keys ∧
    (((BSTMap.empty Int String).put 1 "a").1.put 1 "b").1.size =
      ((BSTMap.empty Int String).put 1 "a").1.size :=
  claim_C7_put_overwrite (BSTMap.empty Int String) 1 "a" "b" trivial

/-- C8: After any sequence of puts, `toString` renders exactly the
bracketed in-order pair list; the key list is strictly ascending with
no duplicates; the listed pairs are exactly the bindings `get` finds;
and the empty map renders as "[ ]". -/
theorem claim_C8_toString_sorted {K V : Type} [LinearOrder K]
    [ToString K] [ToString V] (ps : List (K × V)) :
    (BSTMap.run (ps.map fun p => Op.put p.1 p.2)).toString =
      "[ " ++
        renderPairs (BSTMap.run (ps.map fun p => Op.put p.1 p.2)).root.inorder
        ++ "]" ∧
    (BSTMap.run (ps.map fun p => Op.put p.1 p.2)).root.keys.Sorted (· < ·) ∧
    (BSTMap.run (ps.map fun p => Op.put p.1 p.2)).root.keys.Nodup ∧
    (∀ k v,
      (k, v) ∈ (BSTMap.run (ps.map fun p => Op.put p.1 p.2)).root.inorder ↔
      (BSTMap.run (ps.map fun p => Op.put p.1 p.2)).get k = some v) ∧
    (BSTMap.empty K V).toString = "[ ]" := by
  have hb := (BSTMap.inv_run (K := K) (V := V)
    (ps.map fun p => Op.put p.1 p.2)).1
  refine ⟨BSTMap.toString_eq _, Node.keys_sorted _ hb,
    Node.keys_nodup _ hb, ?_, ?_⟩
  · intro k v
    exact ⟨fun h => Node.get_of_mem_inorder _ k v hb h,
      fun h => Node.get_some_mem _ k v h⟩
  · rw [BSTMap.toString_eq]
    rfl

/-- C9: The demonstration scenario.  Inserting keys 4,5,3,1,6,0,7,2
with their spelled-out values gives size 8; remove(2) returns "two" and
size drops to 7; remove(8) returns empty and changes nothing;
remove(4) throws and leaves size 7; get(5) returns "five"; get(8)
returns empty; and the final rendering lists keys 0,1,3,4,5,6,7 in
order. -/
theorem claim_C9_scenario :
    (BSTMap.run scenarioPuts).size = 8 ∧
    (BSTMap.run scenarioPuts).remove 2 =
      .ok (BSTMap.run (scenarioPuts ++ [Op.rem 2]), some "two") ∧
    (BSTMap.run (scenarioPuts ++ [Op.rem 2])).size = 7 ∧
    (BSTMap.run (scenarioPuts ++ [Op.rem 2])).remove 8 =
      .ok (BSTMap.run (scenarioPuts ++ [Op.rem 2]), none) ∧
    (BSTMap.run (scenarioPuts ++ [Op.rem 2])).remove 4 =
      .error "ERROR: Only leaf nodes can be removed." ∧
    ((BSTMap.run (scenarioPuts ++ [Op.rem 2])).applyOp (Op.rem 4)).size
      = 7 ∧
    (BSTMap.run (scenarioPuts ++ [Op.rem 2])).get 5 = some "five" ∧
    (BSTMap.run (scenarioPuts ++ [Op.rem 2])).get 8 = none ∧
    (BSTMap.run (scenarioPuts ++ [Op.rem 2])).toString =
      "[ (0, zero) (1, one) (3, three) (4, four) (5, five) (6, six) (7, seven) ]"
    := by
  refine ⟨rfl, rfl, rfl, rfl, rfl, rfl, rfl, rfl, ?_⟩
  rw [BSTMap.toString_eq]
  rfl
